import Mathlib

/-!
Shallow embedding of the waveform-synthesis core of `src/play_music/main2.py`:
the waveform merge `merge_wave`, the `KeyConfig` dictionary of per-letter
semitone adjustments, scale-string parsing, and the `generate_wave` rendering
of the `Note` / `Rest` / `Chord` / `Series` component tree.

Modelling conventions:
- Python dicts are insertion-ordered association lists (`List (String × ℤ)`);
  a read of a missing key (`KeyError`) and every other raised exception is
  modelled by `none`.
- Numeric lengths, tempo and rate are exact rationals; `int(...)` truncation
  of the nonnegative quantities that occur is `Nat.floor`.
- A note's per-sample value `sin(2πft/rate) * envelope(t)` is transcendental;
  rendering is therefore parametrised by an arbitrary sample function
  `note_val` over an arbitrary additive monoid of samples, which the claims
  below quantify over.  The frequency formula itself is embedded separately
  over `ℝ` (`freqOf`).
-/

/-- `merge_wave(wave1, wave2)` from main2.py: pick the longer buffer
(`wave2` on ties), copy it, and add the shorter buffer into its prefix. -/
def merge_wave {α : Type} [Add α] (wave1 wave2 : List α) : List α :=
  let lw := if wave2.length < wave1.length then (wave1, wave2) else (wave2, wave1)
  List.zipWith (fun a b => a + b) lw.1 lw.2 ++ lw.1.drop lw.2.length

/-- A Python `dict` with string keys and integer values, as an
insertion-ordered association list. -/
abbrev Dict := List (String × ℤ)

/-- The keys of a dict, in insertion order (`d.keys()`). -/
def keysOf (d : Dict) : List String := d.map Prod.fst

/-- `d[k] = v` on an existing key: the entry is updated in place, keeping its
position (a no-op when the key is absent; writes in the source only follow a
successful read of the same key). -/
def dictSet (d : Dict) (k : String) (v : ℤ) : Dict :=
  d.map (fun p => if p.1 = k then (k, v) else p)

/-- `d[k] += v`: Python first reads `d[k]`, raising `KeyError` when `k` is
absent (modelled by `none`), then writes the sum back. -/
def dictAdd (d : Dict) (k : String) (v : ℤ) : Option Dict :=
  (d.lookup k).map (fun old => dictSet d k (old + v))

/-- `KeyConfig.BASE_KEY_FACTOR`: semitone distance of each natural letter
from A. -/
def BASE_KEY_FACTOR : Dict :=
  [("C", -9), ("D", -7), ("E", -5), ("F", -4), ("G", -2), ("A", 0), ("B", 2)]

/-- `KeyConfig.BASE_KEY_CHANGE`: the default all-zero adjustment table; a
freshly constructed `KeyConfig()` is a copy of it. -/
def BASE_KEY_CHANGE : Dict :=
  [("C", 0), ("D", 0), ("E", 0), ("F", 0), ("G", 0), ("A", 0), ("B", 0)]

/-- `KeyConfig.change_key(scales, signature)`: add the signature factor
(+1 for sharp, -1 for flat, else 0) to each listed letter, left to right.
The source mutates `self` and raises `KeyError` on a letter outside the
table; the run is modelled as an `Option`-valued fold over the letters. -/
def change_key (d : Dict) (scales : List String) (signature : String) : Option Dict :=
  let factor : ℤ := if signature = ("#") then 1 else if signature = ("b") then -1 else 0
  scales.foldl (fun acc s => acc.bind (fun dd => dictAdd dd s factor)) (some d)

/-- `KeyConfig.factor_for_key(key)`: `BASE_KEY_FACTOR[key] + self[key]`,
`KeyError` (`none`) when either table misses the key. -/
def factor_for_key (d : Dict) (key : String) : Option ℤ :=
  match BASE_KEY_FACTOR.lookup key, d.lookup key with
  | some base, some adj => some (base + adj)
  | _, _ => none

/-- `key_conf or KeyConfig()`: Python `or` replaces both `None` and the falsy
empty dict by a fresh default `KeyConfig()`. -/
def orKeyConfig (k : Option Dict) : Dict :=
  match k with
  | none => BASE_KEY_CHANGE
  | some d => if d = [] then BASE_KEY_CHANGE else d

/-- `KeyConfig.merge(key_conf1, key_conf2)`: default-fill missing operands,
then build a fresh `KeyConfig()` and do `new[key] += c1[key] + c2[key]` for
each of its seven keys in order (`KeyError`, i.e. `none`, when an operand
misses one of the letters). -/
def KeyConfig.merge (key_conf1 key_conf2 : Option Dict) : Option Dict :=
  let c1 := orKeyConfig key_conf1
  let c2 := orKeyConfig key_conf2
  (keysOf BASE_KEY_CHANGE).foldl
    (fun acc key => acc.bind (fun d =>
      match c1.lookup key, c2.lookup key with
      | some v1, some v2 => dictAdd d key (v1 + v2)
      | _, _ => none))
    (some BASE_KEY_CHANGE)

/-- The first character class of the scale regex, `[a-gA-G]`. -/
def isNoteLetter (c : Char) : Bool :=
  (('a' ≤ c) && (c ≤ 'g')) || (('A' ≤ c) && (c ≤ 'G'))

/-- The `([0-9]+)$` tail of the scale regex: one or more digits running to
the end of the string, read as a decimal numeral (`int(octave_str)`). -/
def parseDigits (cs : List Char) : Option ℕ :=
  if !cs.isEmpty && cs.all Char.isDigit then
    some (cs.foldl (fun n c => 10 * n + (c.toNat - 48)) 0)
  else none

/-- `re.match(r'([a-gA-G])([b#]?)([0-9]+)$', scale)`: a letter, an optional
accidental and a digit run to the end; `none` when the string does not match
(the source raises).  Since the accidental characters are not digits, the
regex engine's backtracking over `[b#]?` cannot change the outcome. -/
def parseScale (scale : String) : Option (Char × String × ℕ) :=
  match scale.toList with
  | [] => none
  | k :: rest =>
    if isNoteLetter k then
      match rest with
      | a :: rest2 =>
        if a = 'b' ∨ a = '#' then
          (parseDigits rest2).map (fun o => (k, String.mk [a], o))
        else
          (parseDigits rest).map (fun o => (k, (""), o))
      | [] => none
    else none

/-- The discrete part of `Note._freq_from_scale`: default the key config,
parse the scale string, look up the uppercased letter and apply the
accidental, returning the final semitone factor and the octave.  `none`
models both the invalid-scale-format exception and the `KeyError` of the
lookup. -/
def freq_data (scale : String) (key_conf : Option Dict) : Option (ℤ × ℕ) :=
  let kc := orKeyConfig key_conf
  match parseScale scale with
  | none => none
  | some (k, accidental, octave) =>
    match factor_for_key kc (String.mk [k.toUpper]) with
    | none => none
    | some factor0 =>
      let factor := if accidental = ("#") then factor0 + 1
        else if accidental = ("b") then factor0 - 1 else factor0
      some (factor, octave)

/-- The frequency formula `440 * 2 ** ((octave - 4) + factor / 12)`. -/
noncomputable def freqOf (factor : ℤ) (octave : ℕ) : ℝ :=
  440 * (2 : ℝ) ^ (((octave : ℝ) - 4) + (factor : ℝ) / 12)

/-- `Note._freq_from_scale(scale, key_conf)`. -/
noncomputable def freq_from_scale (scale : String) (key_conf : Option Dict) :
    Option ℝ :=
  (freq_data scale key_conf).map (fun fo => freqOf fo.1 fo.2)

/-- `int(length * (60 / bpm) * rate)`: the sample count of a component of
symbolic duration `length` quarter notes (truncation coincides with the
natural floor on the nonnegative values that arise). -/
def numSamples (length bpm rate : ℚ) : ℕ := ⌊length * (60 / bpm) * rate⌋₊

/-- The closed set of `MusicComponent` subclasses of main2.py. -/
inductive MusicComponent : Type where
  | note (scale : String) (length : ℚ)
  | rest (length : ℚ)
  | chord (components : List MusicComponent) (key_conf : Option Dict)
  | series (components : List MusicComponent) (key_conf : Option Dict)

/-- `functools.reduce(merge_wave, waves)`: left-to-right pairwise merge;
Python raises `TypeError` on an empty iterable (`none`). -/
def reduce_merge {α : Type} [Add α] : List (List α) → Option (List α)
  | [] => none
  | w :: ws => some (ws.foldl merge_wave w)

/-- `np.concatenate(waves)`: end-to-end concatenation; numpy raises
`ValueError` on an empty list (`none`). -/
def concat_waves {α : Type} : List (List α) → Option (List α)
  | [] => none
  | ws => some ws.flatten

mutual
/-- `generate_wave(bpm, rate, key_conf)` of each component class.
`note_val factor octave n t` abstracts the note's per-sample value
`sin(2π·freqOf factor octave·t/rate) * envelope(t, n)` (a transcendental
real in the source); every claim below holds for an arbitrary sample
function into an arbitrary additive monoid, which covers the real one. -/
def generate_wave {α : Type} [Zero α] [Add α]
    (note_val : ℤ → ℕ → ℕ → ℕ → α) (bpm rate : ℚ) :
    MusicComponent → Option Dict → Option (List α)
  | .rest length, _ => some (List.replicate (numSamples length bpm rate) 0)
  | .note scale length, key_conf =>
    (freq_data scale key_conf).map (fun fo =>
      (List.range (numSamples length bpm rate)).map
        (note_val fo.1 fo.2 (numSamples length bpm rate)))
  | .chord components key_conf, base_key_conf =>
    (KeyConfig.merge key_conf base_key_conf).bind (fun kc =>
      (generate_waves note_val bpm rate components (some kc)).bind reduce_merge)
  | .series components key_conf, base_key_conf =>
    (KeyConfig.merge key_conf base_key_conf).bind (fun kc =>
      (generate_waves note_val bpm rate components (some kc)).bind concat_waves)

/-- The child renders `[c.generate_wave(bpm, rate, key_conf) for c in components]`,
left to right, propagating the first failure. -/
def generate_waves {α : Type} [Zero α] [Add α]
    (note_val : ℤ → ℕ → ℕ → ℕ → α) (bpm rate : ℚ) :
    List MusicComponent → Option Dict → Option (List (List α))
  | [], _ => some []
  | c :: cs, key_conf =>
    (generate_wave note_val bpm rate c key_conf).bind (fun w =>
      (generate_waves note_val bpm rate cs key_conf).map (fun ws => w :: ws))
end

/-! ### Waveform-merge lemmas -/

theorem zip_drop_getD {α : Type} [AddMonoid α] :
    ∀ (long short : List α), short.length ≤ long.length → ∀ i : ℕ,
      (List.zipWith (fun a b => a + b) long short ++ long.drop short.length).getD i 0
        = long.getD i 0 + short.getD i 0 := by
  intro long
  induction long with
  | nil =>
    intro short h i
    cases short with
    | nil => simp
    | cons b bs => simp at h
  | cons a as ih =>
    intro short h i
    cases short with
    | nil => simp
    | cons b bs =>
      cases i with
      | zero => simp
      | succ n => simpa using ih bs (by simpa using h) n

theorem merge_wave_length {α : Type} [Add α] (w1 w2 : List α) :
    (merge_wave w1 w2).length = max w1.length w2.length := by
  unfold merge_wave
  by_cases h : w2.length < w1.length <;> simp [h] <;> omega

theorem merge_wave_getD {α : Type} [AddCommMonoid α] (w1 w2 : List α) (i : ℕ) :
    (merge_wave w1 w2).getD i 0 = w1.getD i 0 + w2.getD i 0 := by
  unfold merge_wave
  by_cases h : w2.length < w1.length
  · simpa [h] using zip_drop_getD w1 w2 (le_of_lt h) i
  · rw [if_neg h]
    simpa [add_comm] using zip_drop_getD w2 w1 (le_of_not_lt h) i

theorem ext_of_getD {α : Type} [Zero α] (w1 w2 : List α)
    (hl : w1.length = w2.length)
    (h : ∀ i, w1.getD i 0 = w2.getD i 0) : w1 = w2 := by
  apply List.ext_getElem hl
  intro n h1 h2
  have hn := h n
  rwa [List.getD_eq_getElem w1 0 h1, List.getD_eq_getElem w2 0 h2] at hn

theorem merge_wave_nil {α : Type} [Add α] (w : List α) : merge_wave [] w = w := by
  unfold merge_wave
  simp

theorem merge_wave_right_comm {α : Type} [AddCommMonoid α] (b a1 a2 : List α) :
    merge_wave (merge_wave b a1) a2 = merge_wave (merge_wave b a2) a1 := by
  apply ext_of_getD
  · simp [merge_wave_length]
    omega
  · intro i
    rw [merge_wave_getD, merge_wave_getD, merge_wave_getD, merge_wave_getD]
    exact add_right_comm _ _ _

/-- C3: `merge_wave` returns a buffer whose length is the maximum of the two
input lengths, whose sample `i` is `long[i] + short[i]` for `i` below the
shorter length and `long[i]` otherwise (`long` being the longer input, `w2`
on ties as in the source); merging a length-5 all-ones buffer with a
length-3 all-twos buffer yields `[3,3,3,1,1]`. -/
theorem merge_wave_overlay_spec {α : Type} [AddCommMonoid α] (w1 w2 : List α) :
    (merge_wave w1 w2).length = max w1.length w2.length ∧
    (∀ i : ℕ, i < min w1.length w2.length →
      (merge_wave w1 w2).getD i 0 = w1.getD i 0 + w2.getD i 0) ∧
    (∀ i : ℕ, min w1.length w2.length ≤ i →
      (merge_wave w1 w2).getD i 0 =
        (if w2.length < w1.length then w1 else w2).getD i 0) ∧
    merge_wave (List.replicate 5 (1 : ℚ)) (List.replicate 3 (2 : ℚ)) =
      [3, 3, 3, 1, 1] := by
  refine ⟨merge_wave_length w1 w2, fun i _ => merge_wave_getD w1 w2 i, ?_, ?_⟩
  · intro i hi
    rw [merge_wave_getD]
    by_cases h : w2.length < w1.length
    · rw [if_pos h, List.getD_eq_default w2 0 (by omega), add_zero]
    · rw [if_neg h, List.getD_eq_default w1 0 (by omega), zero_add]
  · norm_num [merge_wave, List.replicate_succ]

/-- Witness for C3: the overlay law evaluated inside and beyond the shorter
buffer on the spec's concrete example. -/
theorem merge_wave_overlay_spec_witness :
    ((merge_wave (List.replicate 5 (1 : ℚ)) (List.replicate 3 (2 : ℚ))).getD 1 0 =
      (List.replicate 5 (1 : ℚ)).getD 1 0 + (List.replicate 3 (2 : ℚ)).getD 1 0) ∧
    ((merge_wave (List.replicate 5 (1 : ℚ)) (List.replicate 3 (2 : ℚ))).getD 4 0 =
      (if (List.replicate 3 (2 : ℚ)).length < (List.replicate 5 (1 : ℚ)).length
        then List.replicate 5 (1 : ℚ) else List.replicate 3 (2 : ℚ)).getD 4 0) :=
  ⟨(merge_wave_overlay_spec (List.replicate 5 (1 : ℚ)) (List.replicate 3 (2 : ℚ))).2.1
      1 (by norm_num),
   (merge_wave_overlay_spec (List.replicate 5 (1 : ℚ)) (List.replicate 3 (2 : ℚ))).2.2.1
      4 (by norm_num)⟩

/-! ### Heap model of `merge_wave` for its frame property -/

/-- A heap of numpy buffers addressed by index, to state which buffers an
operation writes. -/
abbrev Store (α : Type) := List (List α)

/-- `long_wave.copy()` bound to a fresh name: allocate a fresh buffer holding
a copy of `buf`; returns the extended heap and the fresh index. -/
def allocCopy {α : Type} (s : Store α) (buf : List α) : Store α × ℕ :=
  (s ++ [buf], s.length)

/-- `new_wave[:len(short_wave)] += short_wave`: in-place element-wise
addition into the prefix of the buffer at `dst`. -/
def sliceAddInPlace {α : Type} [Add α] (s : Store α) (dst : ℕ) (src : List α) :
    Store α :=
  s.set dst (List.zipWith (fun a b => a + b) (s.getD dst []) src
    ++ (s.getD dst []).drop src.length)

/-- `merge_wave` as it executes on the numpy heap: choose the long and short
buffers, copy the long one into a fresh buffer, add the short one into the
copy's prefix in place, and return the copy's index. -/
def merge_wave_heap {α : Type} [Add α] (s : Store α) (w1 w2 : ℕ) : Store α × ℕ :=
  let lw := if (s.getD w2 []).length < (s.getD w1 []).length then (w1, w2) else (w2, w1)
  let a := allocCopy s (s.getD lw.1 [])
  (sliceAddInPlace a.1 a.2 (a.1.getD lw.2 []), a.2)

theorem getD_set_ne {α : Type} (l : List α) (i j : ℕ) (a d : α) (h : i ≠ j) :
    (l.set i a).getD j d = l.getD j d := by
  by_cases hj : j < l.length
  · rw [List.getD_eq_getElem _ _ (by simpa using hj), List.getD_eq_getElem _ _ hj]
    exact List.getElem_set_ne h _
  · rw [List.getD_eq_default _ _ (by simpa using le_of_not_lt hj),
      List.getD_eq_default _ _ (le_of_not_lt hj)]

theorem generate_wave_rest {α : Type} [Zero α] [Add α]
    (nv : ℤ → ℕ → ℕ → ℕ → α) (bpm rate length : ℚ) (kc : Option Dict) :
    generate_wave nv bpm rate (.rest length) kc
      = some (List.replicate (numSamples length bpm rate) 0) := by
  simp [generate_wave]

theorem generate_wave_note {α : Type} [Zero α] [Add α]
    (nv : ℤ → ℕ → ℕ → ℕ → α) (bpm rate length : ℚ) (scale : String) (kc : Option Dict) :
    generate_wave nv bpm rate (.note scale length) kc
      = (freq_data scale kc).map (fun fo =>
          (List.range (numSamples length bpm rate)).map
            (nv fo.1 fo.2 (numSamples length bpm rate))) := by
  simp [generate_wave]

theorem generate_wave_chord {α : Type} [Zero α] [Add α]
    (nv : ℤ → ℕ → ℕ → ℕ → α) (bpm rate : ℚ) (cs : List MusicComponent)
    (kc base : Option Dict) :
    generate_wave nv bpm rate (.chord cs kc) base
      = (KeyConfig.merge kc base).bind (fun m =>
          (generate_waves nv bpm rate cs (some m)).bind reduce_merge) := by
  simp [generate_wave]

theorem generate_wave_series {α : Type} [Zero α] [Add α]
    (nv : ℤ → ℕ → ℕ → ℕ → α) (bpm rate : ℚ) (cs : List MusicComponent)
    (kc base : Option Dict) :
    generate_wave nv bpm rate (.series cs kc) base
      = (KeyConfig.merge kc base).bind (fun m =>
          (generate_waves nv bpm rate cs (some m)).bind concat_waves) := by
  simp [generate_wave]

theorem generate_waves_nil {α : Type} [Zero α] [Add α]
    (nv : ℤ → ℕ → ℕ → ℕ → α) (bpm rate : ℚ) (kc : Option Dict) :
    generate_waves nv bpm rate [] kc = some [] := by
  simp [generate_waves]

theorem generate_waves_cons {α : Type} [Zero α] [Add α]
    (nv : ℤ → ℕ → ℕ → ℕ → α) (bpm rate : ℚ) (c : MusicComponent)
    (cs : List MusicComponent) (kc : Option Dict) :
    generate_waves nv bpm rate (c :: cs) kc
      = (generate_wave nv bpm rate c kc).bind (fun w =>
          (generate_waves nv bpm rate cs kc).map (fun ws => w :: ws)) := by
  simp [generate_waves]

theorem generate_waves_all_some {α : Type} [Zero α] [Add α]
    (nv : ℤ → ℕ → ℕ → ℕ → α) (bpm rate : ℚ) :
    ∀ (cs : List MusicComponent) (kc : Option Dict),
      (∀ c ∈ cs, (generate_wave nv bpm rate c kc).isSome) →
      ∃ ws, generate_waves nv bpm rate cs kc = some ws ∧ ws.length = cs.length := by
  intro cs
  induction cs with
  | nil => intro kc _; exact ⟨[], generate_waves_nil nv bpm rate kc, rfl⟩
  | cons c cs ih =>
    intro kc h
    obtain ⟨w, hw⟩ := Option.isSome_iff_exists.mp (h c (List.mem_cons_self c cs))
    obtain ⟨ws, hws, hlen⟩ := ih kc (fun x hx => h x (List.mem_cons_of_mem c hx))
    exact ⟨w :: ws, by simp [generate_waves_cons, hw, hws], by simp [hlen]⟩

/-- C1 counterexample: rendering a `Chord` with an empty child set does not
return a zero-length sequence — it fails (`functools.reduce` over an empty
iterable raises `TypeError`), here at tempo 60, rate 1, default keys. -/
theorem chord_empty_renders_none :
    generate_wave (fun _ _ _ _ => (0 : ℚ)) 60 1 (.chord [] none) none = none := by
  have hm : KeyConfig.merge none none = some BASE_KEY_CHANGE := by decide
  simp [generate_wave_chord, generate_waves_nil, hm, reduce_merge]

/-- C1 amended: rendering an empty `Chord` or `Series` always fails, and for
every tempo, sample rate and inherited KeyConfig, rendering a `Chord` or
`Series` with a non-empty child list succeeds whenever the key merge
succeeds and every child renders successfully under the merged config. -/
theorem chord_series_render_total {α : Type} [Zero α] [Add α]
    (nv : ℤ → ℕ → ℕ → ℕ → α) (bpm rate : ℚ)
    (cs : List MusicComponent) (kc base : Option Dict) (m : Dict)
    (hm : KeyConfig.merge kc base = some m)
    (hcs : cs ≠ [])
    (hok : ∀ c ∈ cs, (generate_wave nv bpm rate c (some m)).isSome) :
    (generate_wave nv bpm rate (.chord cs kc) base).isSome ∧
    (generate_wave nv bpm rate (.series cs kc) base).isSome ∧
    (∀ kc2 base2 : Option Dict,
      generate_wave nv bpm rate (.chord ([] : List MusicComponent) kc2) base2 = none ∧
      generate_wave nv bpm rate (.series ([] : List MusicComponent) kc2) base2 = none) := by
  obtain ⟨ws, hws, hlen⟩ := generate_waves_all_some nv bpm rate cs (some m) hok
  have hne : ws ≠ [] := by
    intro h
    rw [h] at hlen
    exact hcs (List.length_eq_zero.mp hlen.symm)
  obtain ⟨w, ws2, rfl⟩ := List.exists_cons_of_ne_nil hne
  refine ⟨?_, ?_, ?_⟩
  · simp [generate_wave_chord, hm, hws, reduce_merge]
  · simp [generate_wave_series, hm, hws, concat_waves]
  · intro kc2 base2
    cases hmm : KeyConfig.merge kc2 base2 with
    | none => simp [generate_wave_chord, generate_wave_series, hmm]
    | some m2 =>
      simp [generate_wave_chord, generate_wave_series, hmm, generate_waves_nil,
        reduce_merge, concat_waves]

/-- C1 witness: a one-child chord of a rest renders successfully. -/
theorem chord_series_render_total_witness :
    KeyConfig.merge none none = some BASE_KEY_CHANGE ∧
    (generate_wave (fun _ _ _ _ => (0 : ℚ)) 60 1
      (.chord [.rest 1] none) none).isSome := by
  have hm : KeyConfig.merge none none = some BASE_KEY_CHANGE := by decide
  refine ⟨hm, ?_⟩
  exact (chord_series_render_total (fun _ _ _ _ => (0 : ℚ)) 60 1 [.rest 1] none none
    BASE_KEY_CHANGE hm (by simp)
    (fun c hc => by
      simp at hc
      subst hc
      simp [generate_wave_rest])).1

theorem nat_floor_two_mul (x : ℚ) (hx : 0 ≤ x) :
    2 * ⌊x⌋₊ ≤ ⌊2 * x⌋₊ ∧ (2 * ⌊x⌋₊ = ⌊2 * x⌋₊ ↔ Int.fract x < 1 / 2) := by
  have h2x : (0 : ℚ) ≤ 2 * x := by linarith
  have hnat : (⌊x⌋₊ : ℤ) = ⌊x⌋ := Int.natCast_floor_eq_floor hx
  have hnat2 : (⌊2 * x⌋₊ : ℤ) = ⌊2 * x⌋ := Int.natCast_floor_eq_floor h2x
  have hfr0 : 0 ≤ Int.fract x := Int.fract_nonneg x
  have hfr1 : Int.fract x < 1 := Int.fract_lt_one x
  have key : ⌊2 * x⌋ = 2 * ⌊x⌋ + ⌊2 * Int.fract x⌋ := by
    conv_lhs => rw [show x = (⌊x⌋ : ℚ) + Int.fract x from (Int.floor_add_fract x).symm]
    rw [mul_add, show (2 : ℚ) * ((⌊x⌋ : ℤ) : ℚ) = ((2 * ⌊x⌋ : ℤ) : ℚ) by push_cast; ring,
      Int.floor_int_add]
  have hzero : ⌊2 * Int.fract x⌋ = 0 ↔ Int.fract x < 1 / 2 := by
    rw [Int.floor_eq_zero_iff, Set.mem_Ico]
    constructor
    · intro h
      linarith [h.2]
    · intro h
      exact ⟨by linarith, by linarith⟩
  have hone : ¬ Int.fract x < 1 / 2 → ⌊2 * Int.fract x⌋ = 1 := by
    intro h
    rw [Int.floor_eq_iff]
    push_cast
    constructor <;> linarith
  have hf2 : ⌊2 * Int.fract x⌋ = 0 ∨ ⌊2 * Int.fract x⌋ = 1 := by
    by_cases h : Int.fract x < 1 / 2
    · exact Or.inl (hzero.mpr h)
    · exact Or.inr (hone h)
  have hle : (2 * (⌊x⌋₊ : ℤ)) ≤ (⌊2 * x⌋₊ : ℤ) := by
    rw [hnat, hnat2, key]
    rcases hf2 with h | h <;> omega
  refine ⟨by exact_mod_cast hle, ?_, ?_⟩
  · intro h
    have hZ : 2 * (⌊x⌋₊ : ℤ) = (⌊2 * x⌋₊ : ℤ) := by exact_mod_cast h
    rw [hnat, hnat2, key] at hZ
    exact hzero.mp (by omega)
  · intro h
    have h0 : ⌊2 * Int.fract x⌋ = 0 := hzero.mpr h
    have hZ : (⌊2 * x⌋₊ : ℤ) = 2 * (⌊x⌋₊ : ℤ) := by
      rw [hnat, hnat2, key, h0]
      ring
    omega

/-- C2 amended: `Series([Rest(1), Rest(1)])` renders `2*floor((60/bpm)*rate)`
samples while `Rest(2)` renders `floor(2*(60/bpm)*rate)`; the former never
exceeds the latter, and they are equal exactly when the fractional part of
`(60/bpm)*rate` is below one half (in particular whenever that quantity is
an integer, as with common rates and tempos dividing `60*rate`). -/
theorem series_rest_length_amended {α : Type} [Zero α] [Add α]
    (nv : ℤ → ℕ → ℕ → ℕ → α) (bpm rate : ℚ) (hb : 0 < bpm) (hr : 0 ≤ rate) :
    ((generate_wave nv bpm rate (.series [.rest 1, .rest 1] none) none).map List.length
      = some (2 * ⌊60 / bpm * rate⌋₊)) ∧
    ((generate_wave nv bpm rate (.rest 2) none).map List.length
      = some ⌊2 * (60 / bpm * rate)⌋₊) ∧
    2 * ⌊60 / bpm * rate⌋₊ ≤ ⌊2 * (60 / bpm * rate)⌋₊ ∧
    (Int.fract (60 / bpm * rate) < 1 / 2 →
      (generate_wave nv bpm rate (.series [.rest 1, .rest 1] none) none).map List.length
        = (generate_wave nv bpm rate (.rest 2) none).map List.length) := by
  have hm : KeyConfig.merge none none = some BASE_KEY_CHANGE := by decide
  have hx : (0 : ℚ) ≤ 60 / bpm * rate := by positivity
  have hn1 : numSamples 1 bpm rate = ⌊60 / bpm * rate⌋₊ := by
    unfold numSamples
    rw [one_mul]
  have hn2 : numSamples 2 bpm rate = ⌊2 * (60 / bpm * rate)⌋₊ := by
    unfold numSamples
    rw [mul_assoc]
  have hser : (generate_wave nv bpm rate (.series [.rest 1, .rest 1] none) none).map
      List.length = some (2 * ⌊60 / bpm * rate⌋₊) := by
    simp [generate_wave_series, hm, generate_waves_cons, generate_waves_nil,
      generate_wave_rest, concat_waves, hn1]
    omega
  have hrest : (generate_wave nv bpm rate (.rest 2) none).map List.length
      = some ⌊2 * (60 / bpm * rate)⌋₊ := by
    simp [generate_wave_rest, hn2]
  refine ⟨hser, hrest, (nat_floor_two_mul (60 / bpm * rate) hx).1, ?_⟩
  intro hfrac
  rw [hser, hrest, (nat_floor_two_mul (60 / bpm * rate) hx).2.mpr hfrac]

/-- C2 counterexample: at tempo 40 and rate 1, `(60/bpm)*rate = 3/2`, so the
two unit rests render 1 sample each (2 total) while `Rest(2)` renders 3
samples — concatenation is not additive in symbolic duration there. -/
theorem series_rest_length_cex :
    (generate_wave (fun _ _ _ _ => (0 : ℚ)) 40 1
        (.series [.rest 1, .rest 1] none) none).map List.length ≠
      (generate_wave (fun _ _ _ _ => (0 : ℚ)) 40 1 (.rest 2) none).map List.length := by
  have hm : KeyConfig.merge none none = some BASE_KEY_CHANGE := by decide
  have h1 : numSamples 1 40 1 = 1 := by
    unfold numSamples
    rw [show (1 : ℚ) * (60 / 40) * 1 = 3 / 2 by norm_num]
    rw [Nat.floor_eq_iff (by norm_num)]
    norm_num
  have h2 : numSamples 2 40 1 = 3 := by
    unfold numSamples
    rw [show (2 : ℚ) * (60 / 40) * 1 = 3 by norm_num]
    simp
  simp [generate_wave_series, generate_wave_rest, hm, generate_waves_cons,
    generate_waves_nil, generate_wave_rest, concat_waves, h1, h2]

/-- C2 witness: the length inequality instantiated at tempo 60, rate 1. -/
theorem series_rest_length_amended_witness :
    (0 : ℚ) < 60 ∧ (0 : ℚ) ≤ 1 ∧
    2 * ⌊(60 : ℚ) / 60 * 1⌋₊ ≤ ⌊2 * ((60 : ℚ) / 60 * 1)⌋₊ :=
  ⟨by norm_num, by norm_num,
    (series_rest_length_amended (fun _ _ _ _ => (0 : ℚ)) 60 1 (by norm_num)
      (by norm_num)).2.2.1⟩

/-- C4: both `Note` (when its scale parses) and `Rest` render exactly
`floor(duration * 60 / tempo * rate)` samples, for every duration, tempo,
rate and inherited KeyConfig; in particular a duration-1 component at tempo
60 and rate 44100 renders exactly 44100 samples. -/
theorem note_rest_sample_count {α : Type} [Zero α] [Add α]
    (nv : ℤ → ℕ → ℕ → ℕ → α) (length bpm rate : ℚ) (scale : String)
    (kc : Option Dict) (w : List α)
    (hw : generate_wave nv bpm rate (.note scale length) kc = some w) :
    w.length = ⌊length * 60 / bpm * rate⌋₊ ∧
    (generate_wave nv bpm rate (.rest length) kc).map List.length
      = some ⌊length * 60 / bpm * rate⌋₊ ∧
    numSamples 1 60 44100 = 44100 := by
  have hform : numSamples length bpm rate = ⌊length * 60 / bpm * rate⌋₊ := by
    unfold numSamples
    rw [mul_div_assoc]
  have h44 : numSamples 1 60 44100 = 44100 := by
    unfold numSamples
    rw [show (1 : ℚ) * (60 / 60) * 44100 = 44100 by norm_num]
    simp
  refine ⟨?_, by simp [generate_wave_rest, hform], h44⟩
  rw [generate_wave_note] at hw
  cases hfd : freq_data scale kc with
  | none => rw [hfd] at hw; simp at hw
  | some fo =>
    rw [hfd] at hw
    simp at hw
    rw [← hw, ← hform]
    simp

/-- C4 witness: a concrete `a4` quarter note at tempo 60, rate 1. -/
theorem note_rest_sample_count_witness :
    generate_wave (fun _ _ _ _ => (0 : ℚ)) 60 1 (.note ("a4") 1) none = some [0] ∧
    ([(0 : ℚ)]).length = ⌊(1 : ℚ) * 60 / 60 * 1⌋₊ := by
  have hfd : freq_data ("a4") none = some (0, 4) := by decide
  have hn : numSamples 1 60 1 = 1 := by
    unfold numSamples
    rw [show (1 : ℚ) * (60 / 60) * 1 = 1 by norm_num]
    simp
  have hw : generate_wave (fun _ _ _ _ => (0 : ℚ)) 60 1 (.note ("a4") 1) none
      = some [0] := by
    simp [generate_wave_note, hfd, hn, List.range_succ]
  exact ⟨hw, (note_rest_sample_count (fun _ _ _ _ => (0 : ℚ)) 1 60 1 ("a4") none
    [0] hw).1⟩

/-- C5: the frequency `440 * 2 ** ((octave - 4) + factor / 12)` doubles when
the octave increases by one and is strictly increasing in the octave for a
fixed semitone factor; with the default KeyConfig, the scale string `a4`
yields exactly 440. -/
theorem freq_octave_property :
    (∀ (factor : ℤ) (octave : ℕ),
      freqOf factor (octave + 1) = 2 * freqOf factor octave) ∧
    (∀ (factor : ℤ) (o1 o2 : ℕ), o1 < o2 → freqOf factor o1 < freqOf factor o2) ∧
    freq_from_scale ("a4") none = some 440 := by
  have h2 : (0 : ℝ) < 2 := by norm_num
  refine ⟨?_, ?_, ?_⟩
  · intro factor octave
    unfold freqOf
    push_cast
    rw [show ((octave : ℝ) + 1) - 4 + (factor : ℝ) / 12
        = ((octave : ℝ) - 4 + (factor : ℝ) / 12) + 1 by ring,
      Real.rpow_add h2, Real.rpow_one]
    ring
  · intro factor o1 o2 h
    unfold freqOf
    have he : (o1 : ℝ) - 4 + (factor : ℝ) / 12 < (o2 : ℝ) - 4 + (factor : ℝ) / 12 := by
      have : (o1 : ℝ) < o2 := by exact_mod_cast h
      linarith
    have := (Real.rpow_lt_rpow_left_iff (x := 2) (by norm_num)).mpr he
    nlinarith [Real.rpow_pos_of_pos h2 ((o1 : ℝ) - 4 + (factor : ℝ) / 12)]
  · have hfd : freq_data ("a4") none = some (0, 4) := by decide
    unfold freq_from_scale
    rw [hfd]
    unfold freqOf
    norm_num

/-- C5 witness: strict octave monotonicity instantiated at factor 0. -/
theorem freq_octave_property_witness :
    (0 : ℕ) < 1 ∧ freqOf 0 0 < freqOf 0 1 :=
  ⟨by norm_num, freq_octave_property.2.1 0 0 1 (by norm_num)⟩

/-- C7: rendering a note with scale string `h4`, or `c` (missing octave),
fails with the invalid-scale-format error at parse time, and applying a key
signature to `H` — or any letter absent from the seven-letter table — fails
with the invalid-key (`KeyError`) lookup error. -/
theorem invalid_scale_and_key_errors :
    generate_wave (fun _ _ _ _ => (0 : ℚ)) 60 1 (.note ("h4") 1) none = none ∧
    generate_wave (fun _ _ _ _ => (0 : ℚ)) 60 1 (.note ("c") 1) none = none ∧
    parseScale ("h4") = none ∧
    parseScale ("c") = none ∧
    change_key BASE_KEY_CHANGE [("H")] ("#") = none ∧
    (∀ s : String, BASE_KEY_CHANGE.lookup s = none →
      ∀ sig : String, change_key BASE_KEY_CHANGE [s] sig = none) := by
  have hh : freq_data ("h4") none = none := by decide
  have hc : freq_data ("c") none = none := by decide
  refine ⟨by simp [generate_wave_note, hh], by simp [generate_wave_note, hc],
    by decide, by decide, by decide, ?_⟩
  intro s hs sig
  simp [change_key, dictAdd, hs]

/-- C7 witness: the invalid-key failure instantiated at the letter `H`. -/
theorem invalid_scale_and_key_errors_witness :
    BASE_KEY_CHANGE.lookup ("H") = none ∧
    change_key BASE_KEY_CHANGE [("H")] ("b") = none :=
  ⟨by decide, invalid_scale_and_key_errors.2.2.2.2.2 ("H") (by decide) ("b")⟩

/-- Pointwise lifting of list permutation to optional child-render results:
both fail, or both succeed with permuted wave lists. -/
def optPerm {β : Type} : Option (List β) → Option (List β) → Prop
  | none, none => True
  | some a, some b => a.Perm b
  | _, _ => False

theorem optPerm_trans {β : Type} {o1 o2 o3 : Option (List β)}
    (h1 : optPerm o1 o2) (h2 : optPerm o2 o3) : optPerm o1 o3 := by
  cases o1 <;> cases o2 <;> cases o3 <;> simp [optPerm] at h1 h2 ⊢
  exact h1.trans h2

theorem generate_waves_perm {α : Type} [Zero α] [Add α]
    (nv : ℤ → ℕ → ℕ → ℕ → α) (bpm rate : ℚ) (kc : Option Dict)
    {l1 l2 : List MusicComponent} (h : l1.Perm l2) :
    optPerm (generate_waves nv bpm rate l1 kc) (generate_waves nv bpm rate l2 kc) := by
  induction h with
  | nil => simp [generate_waves_nil, optPerm]
  | cons x h ih =>
    rename_i la lb
    rw [generate_waves_cons, generate_waves_cons]
    cases hx : generate_wave nv bpm rate x kc with
    | none => simp [optPerm]
    | some w =>
      cases h1 : generate_waves nv bpm rate la kc with
      | none =>
        cases h2 : generate_waves nv bpm rate lb kc with
        | none => simp [optPerm]
        | some ws2 =>
          rw [h1, h2] at ih
          simp [optPerm] at ih
      | some ws1 =>
        cases h2 : generate_waves nv bpm rate lb kc with
        | none =>
          rw [h1, h2] at ih
          simp [optPerm] at ih
        | some ws2 =>
          rw [h1, h2] at ih
          simp only [optPerm] at ih ⊢
          simpa using ih.cons w
  | swap x y l =>
    simp only [generate_waves_cons]
    cases hx : generate_wave nv bpm rate x kc with
    | none =>
      cases hy : generate_wave nv bpm rate y kc with
      | none => simp [optPerm]
      | some wy => simp [optPerm]
    | some wx =>
      cases hy : generate_wave nv bpm rate y kc with
      | none => simp [optPerm]
      | some wy =>
        cases hws : generate_waves nv bpm rate l kc with
        | none => simp [optPerm]
        | some ws =>
          have hsw := List.Perm.swap wx wy ws
          simp only [Option.some_bind, Option.map_some, optPerm]
          simpa using hsw
  | trans h1 h2 ih1 ih2 => exact optPerm_trans ih1 ih2

theorem reduce_merge_eq_foldl {α : Type} [Add α] (w : List α) (ws : List (List α)) :
    reduce_merge (w :: ws) = some ((w :: ws).foldl merge_wave []) := by
  simp [reduce_merge, merge_wave_nil]

theorem reduce_merge_perm {α : Type} [AddCommMonoid α] {ws1 ws2 : List (List α)}
    (h : ws1.Perm ws2) : reduce_merge ws1 = reduce_merge ws2 := by
  cases ws1 with
  | nil =>
    rw [h.symm.eq_nil]
  | cons w ws =>
    have hne : ws2 ≠ [] := by
      intro he
      subst he
      exact List.cons_ne_nil w ws h.eq_nil
    obtain ⟨w2, ws2b, rfl⟩ := List.exists_cons_of_ne_nil hne
    rw [reduce_merge_eq_foldl, reduce_merge_eq_foldl,
      h.foldl_eq' (fun x _ y _ z => merge_wave_right_comm z x y) []]

/-- C8: the waveform rendered by a `Chord` does not depend on the order of
its children: permuting the child list leaves `generate_wave` unchanged
(for every tempo, rate, own and inherited key config, and sample monoid). -/
theorem chord_order_independent {α : Type} [AddCommMonoid α]
    (nv : ℤ → ℕ → ℕ → ℕ → α) (bpm rate : ℚ) (kc base : Option Dict)
    {l1 l2 : List MusicComponent} (h : l1.Perm l2) :
    generate_wave nv bpm rate (.chord l1 kc) base
      = generate_wave nv bpm rate (.chord l2 kc) base := by
  rw [generate_wave_chord, generate_wave_chord]
  cases hm : KeyConfig.merge kc base with
  | none => rfl
  | some m =>
    simp only [Option.some_bind]
    have hp := generate_waves_perm nv bpm rate (some m) h
    cases h1 : generate_waves nv bpm rate l1 (some m) with
    | none =>
      cases h2 : generate_waves nv bpm rate l2 (some m) with
      | none => rfl
      | some ws2 =>
        rw [h1, h2] at hp
        simp [optPerm] at hp
    | some ws1 =>
      cases h2 : generate_waves nv bpm rate l2 (some m) with
      | none =>
        rw [h1, h2] at hp
        simp [optPerm] at hp
      | some ws2 =>
        rw [h1, h2] at hp
        simp only [optPerm] at hp
        simp only [Option.some_bind]
        exact reduce_merge_perm hp

/-- C8 witness: swapping the two children of a concrete chord. -/
theorem chord_order_independent_witness :
    generate_wave (fun _ _ _ _ => (0 : ℚ)) 60 1 (.chord [.rest 1, .rest 2] none) none
      = generate_wave (fun _ _ _ _ => (0 : ℚ)) 60 1
          (.chord [.rest 2, .rest 1] none) none :=
  chord_order_independent (fun _ _ _ _ => (0 : ℚ)) 60 1 none none
    (List.Perm.swap (MusicComponent.rest 2) (MusicComponent.rest 1) [])

theorem getD_set_self_helper {α : Type} (l : List α) (i : ℕ) (a d : α)
    (h : i < l.length) : (l.set i a).getD i d = a := by
  rw [List.getD_eq_getElem _ _ (by simpa using h)]
  exact List.getElem_set_self _

theorem store_getD_append {α : Type} (s : Store α) (b : List α) (j : ℕ)
    (hj : j < s.length) : (s ++ [b]).getD j [] = s.getD j [] :=
  List.getD_append s [b] [] j hj

theorem store_getD_append_last {α : Type} (s : Store α) (b : List α) :
    (s ++ [b]).getD s.length [] = b := by
  rw [List.getD_append_right s [b] [] s.length le_rfl]
  simp

theorem store_set_last_getD {α : Type} (s : Store α) (b v : List α) (j : ℕ)
    (hj : j < s.length) :
    ((s ++ [b]).set s.length v).getD j [] = s.getD j [] := by
  rw [getD_set_ne _ _ _ _ _ (by omega)]
  exact store_getD_append s b j hj

theorem store_set_last_getD_self {α : Type} (s : Store α) (b v : List α) :
    ((s ++ [b]).set s.length v).getD s.length [] = v := by
  apply getD_set_self_helper
  simp

/-- C10: `merge_wave` leaves both input buffers unchanged — the result is
written into a fresh copy of the longer buffer, and that fresh buffer holds
exactly the functional merge of the two inputs. -/
theorem merge_wave_frame {α : Type} [Add α] (s : Store α) (w1 w2 : ℕ)
    (h1 : w1 < s.length) (h2 : w2 < s.length) :
    ((merge_wave_heap s w1 w2).1.getD w1 [] = s.getD w1 []) ∧
    ((merge_wave_heap s w1 w2).1.getD w2 [] = s.getD w2 []) ∧
    ((merge_wave_heap s w1 w2).1.getD (merge_wave_heap s w1 w2).2 []
      = merge_wave (s.getD w1 []) (s.getD w2 [])) := by
  unfold merge_wave_heap allocCopy sliceAddInPlace merge_wave
  by_cases hc : (s.getD w2 []).length < (s.getD w1 []).length
  · simp only [if_pos hc]
    rw [store_getD_append_last, store_getD_append s _ w2 h2]
    exact ⟨store_set_last_getD s _ _ w1 h1, store_set_last_getD s _ _ w2 h2,
      store_set_last_getD_self s _ _⟩
  · simp only [if_neg hc]
    rw [store_getD_append_last, store_getD_append s _ w1 h1]
    exact ⟨store_set_last_getD s _ _ w1 h1, store_set_last_getD s _ _ w2 h2,
      store_set_last_getD_self s _ _⟩

/-- C10 witness: a concrete two-buffer heap. -/
theorem merge_wave_frame_witness :
    (0 : ℕ) < ([[ (1 : ℚ), 1], [2]] : Store ℚ).length ∧
    (1 : ℕ) < ([[ (1 : ℚ), 1], [2]] : Store ℚ).length ∧
    (merge_wave_heap ([[ (1 : ℚ), 1], [2]] : Store ℚ) 0 1).1.getD 0 []
      = ([[ (1 : ℚ), 1], [2]] : Store ℚ).getD 0 [] :=
  ⟨by norm_num, by norm_num,
    (merge_wave_frame ([[ (1 : ℚ), 1], [2]] : Store ℚ) 0 1 (by norm_num)
      (by norm_num)).1⟩

/-! ### KeyConfig key-set invariant -/

theorem keysOf_dictSet (d : Dict) (k : String) (v : ℤ) :
    keysOf (dictSet d k v) = keysOf d := by
  unfold keysOf dictSet
  rw [List.map_map]
  apply List.map_congr_left
  intro p _
  by_cases h : p.1 = k <;> simp [h]

theorem keysOf_dictAdd {d d2 : Dict} {k : String} {v : ℤ}
    (h : dictAdd d k v = some d2) : keysOf d2 = keysOf d := by
  unfold dictAdd at h
  cases hl : d.lookup k with
  | none =>
    rw [hl] at h
    simp at h
  | some old =>
    rw [hl] at h
    simp at h
    rw [← h]
    exact keysOf_dictSet d k _

theorem foldl_option_none {σ β : Type} (g : σ → β → Option σ) :
    ∀ ls : List β,
      ls.foldl (fun acc s => acc.bind (fun dd => g dd s)) (none : Option σ) = none := by
  intro ls
  induction ls with
  | nil => rfl
  | cons s ls ih => simpa using ih

theorem keysOf_foldl_option {β : Type} (g : Dict → β → Option Dict)
    (hg : ∀ d k d2, g d k = some d2 → keysOf d2 = keysOf d) :
    ∀ (ls : List β) (d m : Dict),
      ls.foldl (fun acc s => acc.bind (fun dd => g dd s)) (some d) = some m →
      keysOf m = keysOf d := by
  intro ls
  induction ls with
  | nil =>
    intro d m h
    simp at h
    rw [h]
  | cons s ls ih =>
    intro d m h
    rw [List.foldl_cons] at h
    simp only [Option.some_bind] at h
    cases ha : g d s with
    | none =>
      rw [ha, foldl_option_none g ls] at h
      exact absurd h (by simp)
    | some d1 =>
      rw [ha] at h
      rw [ih d1 m h, hg d s d1 ha]

theorem keysOf_change_key {d d2 : Dict} {scales : List String} {sig : String}
    (h : change_key d scales sig = some d2) : keysOf d2 = keysOf d := by
  unfold change_key at h
  exact keysOf_foldl_option _ (fun dd k dd2 hh => keysOf_dictAdd hh) scales d d2 h

theorem keysOf_merge {k1 k2 : Option Dict} {m : Dict}
    (h : KeyConfig.merge k1 k2 = some m) : keysOf m = keysOf BASE_KEY_CHANGE := by
  simp only [KeyConfig.merge] at h
  refine keysOf_foldl_option
    (fun dd key =>
      match (orKeyConfig k1).lookup key, (orKeyConfig k2).lookup key with
      | some v1, some v2 => dictAdd dd key (v1 + v2)
      | _, _ => none)
    (fun dd key dd2 hh => ?_) (keysOf BASE_KEY_CHANGE) BASE_KEY_CHANGE m h
  have hh2 : (match List.lookup key (orKeyConfig k1), List.lookup key (orKeyConfig k2) with
      | some v1, some v2 => dictAdd dd key (v1 + v2)
      | _, _ => none) = some dd2 := hh
  cases ha : List.lookup key (orKeyConfig k1) with
  | none =>
    rw [ha] at hh2
    cases List.lookup key (orKeyConfig k2) <;> simp at hh2
  | some v1 =>
    rw [ha] at hh2
    cases hb : List.lookup key (orKeyConfig k2) with
    | none =>
      rw [hb] at hh2
      simp at hh2
    | some v2 =>
      rw [hb] at hh2
      exact keysOf_dictAdd hh2

/-- C9: every KeyConfig operation preserves the invariant that exactly the
seven natural-letter keys are present: the fresh table has exactly these
keys, every in-place `+=` step of `change_key` (including steps of runs
that later fail) preserves the key set, successful `change_key` runs
preserve it, and `merge` always yields exactly the seven keys. -/
theorem keyconfig_keys_invariant :
    keysOf BASE_KEY_CHANGE = [("C"), ("D"), ("E"), ("F"), ("G"), ("A"), ("B")] ∧
    (∀ (d : Dict) (k : String) (v : ℤ) (d2 : Dict),
      dictAdd d k v = some d2 → keysOf d2 = keysOf d) ∧
    (∀ (d : Dict) (scales : List String) (sig : String) (d2 : Dict),
      change_key d scales sig = some d2 → keysOf d2 = keysOf d) ∧
    (∀ (k1 k2 : Option Dict) (m : Dict),
      KeyConfig.merge k1 k2 = some m → keysOf m = keysOf BASE_KEY_CHANGE) :=
  ⟨by decide, fun _ _ _ _ h => keysOf_dictAdd h,
    fun _ _ _ _ h => keysOf_change_key h, fun _ _ _ h => keysOf_merge h⟩

/-- C9 witness: a concrete sharp key signature. -/
theorem keyconfig_keys_invariant_witness :
    change_key BASE_KEY_CHANGE [("F")] ("#")
      = some [("C", 0), ("D", 0), ("E", 0), ("F", 1), ("G", 0), ("A", 0), ("B", 0)] ∧
    keysOf [(("C" : String), (0 : ℤ)), ("D", 0), ("E", 0), ("F", 1), ("G", 0),
      ("A", 0), ("B", 0)] = keysOf BASE_KEY_CHANGE :=
  ⟨by decide,
    keyconfig_keys_invariant.2.2.1 BASE_KEY_CHANGE [("F")] ("#") _ (by decide)⟩

/-! ### KeyConfig merge algebra -/

/-- A dict is a well-formed KeyConfig when its key list is exactly the seven
natural letters in class construction order: every KeyConfig the source
builds starts from a copy of `BASE_KEY_CHANGE` (fixing the key list) and
only ever updates values in place. -/
def WFKeyConfig (d : Dict) : Prop := keysOf d = keysOf BASE_KEY_CHANGE

theorem WFKeyConfig_explicit {d : Dict} (h : WFKeyConfig d) :
    ∃ vC vD vE vF vG vA vB : ℤ,
      d = [("C", vC), ("D", vD), ("E", vE), ("F", vF), ("G", vG), ("A", vA),
        ("B", vB)] := by
  unfold WFKeyConfig keysOf BASE_KEY_CHANGE at h
  rcases d with _ | ⟨⟨k1, v1⟩, _ | ⟨⟨k2, v2⟩, _ | ⟨⟨k3, v3⟩, _ | ⟨⟨k4, v4⟩,
    _ | ⟨⟨k5, v5⟩, _ | ⟨⟨k6, v6⟩, _ | ⟨⟨k7, v7⟩, _ | ⟨⟨k8, v8⟩, d⟩⟩⟩⟩⟩⟩⟩⟩ <;>
    simp at h
  obtain ⟨h1, h2, h3, h4, h5, h6, h7⟩ := h
  subst h1 h2 h3 h4 h5 h6 h7
  exact ⟨v1, v2, v3, v4, v5, v6, v7, rfl⟩

theorem merge_explicit (vC vD vE vF vG vA vB wC wD wE wF wG wA wB : ℤ) :
    KeyConfig.merge
      (some [("C", vC), ("D", vD), ("E", vE), ("F", vF), ("G", vG), ("A", vA),
        ("B", vB)])
      (some [("C", wC), ("D", wD), ("E", wE), ("F", wF), ("G", wG), ("A", wA),
        ("B", wB)])
      = some [("C", vC + wC), ("D", vD + wD), ("E", vE + wE), ("F", vF + wF),
        ("G", vG + wG), ("A", vA + wA), ("B", vB + wB)] := by
  simp [KeyConfig.merge, orKeyConfig, keysOf, BASE_KEY_CHANGE, dictAdd, dictSet,
    List.lookup]

theorem merge_none_left_explicit (wC wD wE wF wG wA wB : ℤ) :
    KeyConfig.merge none
      (some [("C", wC), ("D", wD), ("E", wE), ("F", wF), ("G", wG), ("A", wA),
        ("B", wB)])
      = some [("C", wC), ("D", wD), ("E", wE), ("F", wF), ("G", wG), ("A", wA),
        ("B", wB)] := by
  simp [KeyConfig.merge, orKeyConfig, keysOf, BASE_KEY_CHANGE, dictAdd, dictSet,
    List.lookup]

theorem merge_none_right_explicit (wC wD wE wF wG wA wB : ℤ) :
    KeyConfig.merge
      (some [("C", wC), ("D", wD), ("E", wE), ("F", wF), ("G", wG), ("A", wA),
        ("B", wB)]) none
      = some [("C", wC), ("D", wD), ("E", wE), ("F", wF), ("G", wG), ("A", wA),
        ("B", wB)] := by
  simp [KeyConfig.merge, orKeyConfig, keysOf, BASE_KEY_CHANGE, dictAdd, dictSet,
    List.lookup]

/-- C6: on well-formed KeyConfigs, `merge` is associative and commutative,
its result's adjustment at each letter is the sum of the operands'
adjustments, and merging with a missing (`None`) operand returns a config
equal to the other operand. -/
theorem keyconfig_merge_algebra (a b c : Dict)
    (ha : WFKeyConfig a) (hb : WFKeyConfig b) (hc : WFKeyConfig c) :
    KeyConfig.merge (KeyConfig.merge (some a) (some b)) (some c)
      = KeyConfig.merge (some a) (KeyConfig.merge (some b) (some c)) ∧
    KeyConfig.merge (some a) (some b) = KeyConfig.merge (some b) (some a) ∧
    (∀ k : String, k ∈ keysOf BASE_KEY_CHANGE →
      (KeyConfig.merge (some a) (some b)).bind (fun m => m.lookup k)
        = some ((a.lookup k).getD 0 + (b.lookup k).getD 0)) ∧
    KeyConfig.merge none (some a) = some a ∧
    KeyConfig.merge (some a) none = some a := by
  obtain ⟨aC, aD, aE, aF, aG, aA, aB2, rfl⟩ := WFKeyConfig_explicit ha
  obtain ⟨bC, bD, bE, bF, bG, bA, bB2, rfl⟩ := WFKeyConfig_explicit hb
  obtain ⟨cC, cD, cE, cF, cG, cA, cB2, rfl⟩ := WFKeyConfig_explicit hc
  refine ⟨?_, ?_, ?_, merge_none_left_explicit aC aD aE aF aG aA aB2,
    merge_none_right_explicit aC aD aE aF aG aA aB2⟩
  · rw [merge_explicit, merge_explicit, merge_explicit, merge_explicit]
    simp [add_assoc]
  · rw [merge_explicit, merge_explicit]
    simp [add_comm]
  · intro k hk
    rw [merge_explicit]
    fin_cases hk <;> simp [List.lookup]

/-- C6 witness: the default config is well-formed and absorbing `None`. -/
theorem keyconfig_merge_algebra_witness :
    WFKeyConfig BASE_KEY_CHANGE ∧
    KeyConfig.merge none (some BASE_KEY_CHANGE) = some BASE_KEY_CHANGE := by
  have hwf : WFKeyConfig BASE_KEY_CHANGE := by
    unfold WFKeyConfig
    decide
  exact ⟨hwf, (keyconfig_merge_algebra BASE_KEY_CHANGE BASE_KEY_CHANGE
    BASE_KEY_CHANGE hwf hwf hwf).2.2.2.1⟩
